import Mathlib

/-!
Verification of the Gaussian-process module (gp.py, cov.py) of a PyMC3 fork.

The development shallowly embeds the two source files over exact real
arithmetic.  External collaborators of the module (the Cholesky
decomposition, triangular solves, the random number generator) are modelled
as abstract parameters, following the collaborator contracts of the design
document: the module treats them as black boxes, so every statement proved
here holds for an arbitrary implementation of those primitives.  Python
floats are modelled as real numbers; float literals such as 1e-6 denote the
corresponding rationals.
-/

open scoped BigOperators
open Matrix (transpose mulVec)
open scoped Matrix

namespace PyMC3GP

noncomputable section RealEmbedding

/-- A matrix of reals, with dimensions carried in the type. -/
abbrev Mat (r c : ℕ) := Matrix (Fin r) (Fin c) ℝ

/-- Embedding of theano.tensor.eye(n): the n by n identity matrix. -/
def ttEye (k : ℕ) : Mat k k := fun i j => if i = j then 1 else 0

/-- Embedding of gp.py stabilize: K + 1e-6 * (tt.nlinalg.trace(K)/n) * tt.eye(n),
where n = K.shape[0]. -/
def stabilize {k : ℕ} (K : Mat k k) : Mat k k :=
  K + (1e-6 * (Matrix.trace K / (k : ℝ))) • ttEye k

/-- The linear-algebra collaborators consumed by gp.py: Cholesky(nofail=True,
lower=True), Solve(A_structure="lower_triangular") and
Solve(A_structure="upper_triangular"), applied to matrix and to vector
right-hand sides.  They are abstract: gp.py uses them as black boxes. -/
structure LinAlg where
  chol : ∀ {k : ℕ}, Mat k k → Mat k k
  solveLowerM : ∀ {k b : ℕ}, Mat k k → Mat k b → Mat k b
  solveLowerV : ∀ {k : ℕ}, Mat k k → (Fin k → ℝ) → (Fin k → ℝ)
  solveUpperV : ∀ {k : ℕ}, Mat k k → (Fin k → ℝ) → (Fin k → ℝ)

/-- A covariance function object as gp.py consumes it: it can be called as
K(X) (full matrix, Xs=None), K(X, Xs) (cross matrix) or K(X, diag=True)
(diagonal vector), on inputs with d feature columns and any number of rows. -/
structure KernelFn (d : ℕ) where
  full1 : ∀ {a : ℕ}, Matrix (Fin a) (Fin d) ℝ → Mat a a
  full2 : ∀ {a b : ℕ}, Matrix (Fin a) (Fin d) ℝ → Matrix (Fin b) (Fin d) ℝ → Mat a b
  dg : ∀ {a : ℕ}, Matrix (Fin a) (Fin d) ℝ → Fin a → ℝ

/-- A noise covariance function: gp.py only ever calls it with a single
argument, as in self.Kn(self.X) and self.Kn(Xs). -/
def NoiseFn (d : ℕ) : Type := ∀ {a : ℕ}, Matrix (Fin a) (Fin d) ℝ → Mat a a

/-- A mean function object, called as m(X), returning one value per row. -/
structure MeanFn (d : ℕ) where
  app : ∀ {a : ℕ}, Matrix (Fin a) (Fin d) ℝ → Fin a → ℝ

/-- Embedding of GPBase.logp: the base class returns 0.0 for any y. -/
def GPBase_logp {nf : ℕ} (_y : Fin nf → ℝ) : ℝ := 0.0

/-- Embedding of GPFullNonConjugate.logp.  The class defines no logp of its
own, so the method is inherited unchanged from GPBase. -/
def nonConjLogp {nf : ℕ} (y : Fin nf → ℝ) : ℝ := GPBase_logp y

/-- Embedding of the deterministic transform in GPFullNonConjugate.RV:
f = tt.dot(L, v) with L = cholesky(stabilize(K(X))), where v is the
standard-normal rotation variable of length X.shape[0]. -/
def nonConjRV {d nf : ℕ} (la : LinAlg) (K : KernelFn d)
    (X : Matrix (Fin nf) (Fin d) ℝ) (v : Fin nf → ℝ) : Fin nf → ℝ :=
  (la.chol (stabilize (K.full1 X))) *ᵥ v

/-- Embedding of GPFullConjugate.conditional (gp.py lines 237-252).
Returns the pair (mean, covariance) the method returns. -/
def fullConditional {d nf ns : ℕ} (la : LinAlg) (K : KernelFn d) (Kn : NoiseFn d)
    (m : MeanFn d) (X : Matrix (Fin nf) (Fin d) ℝ) (Xs : Matrix (Fin ns) (Fin d) ℝ)
    (y : Fin nf → ℝ) (obs_noise : Bool) : (Fin ns → ℝ) × Mat ns ns :=
  let Kxx := K.full1 X
  let Knx := Kn X
  let Kxs := K.full2 X Xs
  let Kss := K.full1 Xs
  let r := y - m.app X
  let L := la.chol (stabilize Kxx + Knx)
  let A := la.solveLowerM L Kxs
  let V := la.solveLowerV L r
  let mean := Aᵀ *ᵥ V + m.app Xs
  let cov := if obs_noise then Kn Xs + Kss - Aᵀ * A else Kss - Aᵀ * A
  (mean, stabilize cov)

/-- The posterior mean of the full-conjugate conditional exactly as claim C1
words it: mean(Xs) + Aᵗ V with L = cholesky(stabilize(K(X,X)) + noise(X,X)),
A = solve_lower(L, K(X,Xs)), V = solve_lower(L, y - mean(X)). -/
def claimFullCondMean {d nf ns : ℕ} (la : LinAlg) (K : KernelFn d) (Kn : NoiseFn d)
    (m : MeanFn d) (X : Matrix (Fin nf) (Fin d) ℝ) (Xs : Matrix (Fin ns) (Fin d) ℝ)
    (y : Fin nf → ℝ) : Fin ns → ℝ :=
  let L := la.chol (stabilize (K.full1 X) + Kn X)
  let A := la.solveLowerM L (K.full2 X Xs)
  let V := la.solveLowerV L (y - m.app X)
  m.app Xs + Aᵀ *ᵥ V

/-- The posterior covariance of the full-conjugate conditional exactly as
claim C1 words it: K(Xs,Xs) - Aᵗ A, with the noise covariance at Xs added
exactly when obs_noise is true, and nothing else applied to it. -/
def claimFullCondCov {d nf ns : ℕ} (la : LinAlg) (K : KernelFn d) (Kn : NoiseFn d)
    (X : Matrix (Fin nf) (Fin d) ℝ) (Xs : Matrix (Fin ns) (Fin d) ℝ)
    (obs_noise : Bool) : Mat ns ns :=
  let L := la.chol (stabilize (K.full1 X) + Kn X)
  let A := la.solveLowerM L (K.full2 X Xs)
  if obs_noise then Kn Xs + K.full1 Xs - Aᵀ * A else K.full1 Xs - Aᵀ * A

/-- Embedding of tt.clip(x, 0.0, np.inf): clamp below at 0 (the upper bound
np.inf never binds). -/
def ttClip0 (x : ℝ) : ℝ := max x 0

/-- Embedding of GPSparseConjugate.logp (gp.py lines 340-365).  The approx
attribute is the string stored by the constructor; a string other than
"FITC"/"VFE" raises NotImplementedError, modelled as none. -/
def sparseLogp {d nf nu : ℕ} (la : LinAlg) (K : KernelFn d) (m : MeanFn d)
    (X : Matrix (Fin nf) (Fin d) ℝ) (Xu : Matrix (Fin nu) (Fin d) ℝ)
    (sigma : ℝ) (approx : String) (y : Fin nf → ℝ) : Option ℝ :=
  let sigma2 := sigma ^ 2
  let Kuu := K.full2 Xu Xu
  let Kuf := K.full2 Xu X
  let Luu := la.chol (stabilize Kuu)
  let A := la.solveLowerM Luu Kuf
  let Qffd : Fin nf → ℝ := fun j => ∑ i, A i j * A i j
  let LamdTrace : Option ((Fin nf → ℝ) × ℝ) :=
    if approx = "FITC" then
      let Kffd := K.dg X
      some (fun j => ttClip0 (Kffd j - Qffd j) + sigma2, 0.0)
    else if approx = "VFE" then
      some (fun _ => sigma2,
            (1.0 / (2.0 * sigma2)) * ((∑ j, K.dg X j) - ∑ j, ∑ i, A i j * A i j)
      )
    else none
  LamdTrace.map (fun p =>
    let Lamd := p.1
    let trace := p.2
    let A_l : Mat nu nf := fun i j => A i j / Lamd j
    let L_B := la.chol (ttEye nu + A_l * Aᵀ)
    let r := y - m.app X
    let r_l := fun j => r j / Lamd j
    let c := la.solveLowerV L_B (A *ᵥ r_l)
    let constant := 0.5 * (nf : ℝ) * Real.log (2.0 * Real.pi)
    let logdet := 0.5 * (∑ j, Real.log (Lamd j)) + ∑ i, Real.log (L_B i i)
    let quadratic := 0.5 * ((∑ j, r j * r_l j) - ∑ i, c i * c i)
    let total := -1.0 * (constant + logdet + quadratic + trace)
    total)

/-- Embedding of GPSparseConjugate.conditional (gp.py lines 309-338). -/
def sparseConditional {d nf nu ns : ℕ} (la : LinAlg) (K : KernelFn d) (m : MeanFn d)
    (X : Matrix (Fin nf) (Fin d) ℝ) (Xu : Matrix (Fin nu) (Fin d) ℝ)
    (sigma : ℝ) (approx : String) (Xs : Matrix (Fin ns) (Fin d) ℝ)
    (y : Fin nf → ℝ) (obs_noise : Bool) : Option ((Fin ns → ℝ) × Mat ns ns) :=
  let sigma2 := sigma ^ 2
  let Kuu := K.full1 Xu
  let Kuf := K.full2 Xu X
  let Luu := la.chol (stabilize Kuu)
  let A := la.solveLowerM Luu Kuf
  let Qffd : Fin nf → ℝ := fun j => ∑ i, A i j * A i j
  let LamdO : Option (Fin nf → ℝ) :=
    if approx = "FITC" then
      let Kffd := K.dg X
      some (fun j => ttClip0 (Kffd j - Qffd j) + sigma2)
    else if approx = "VFE" then some (fun _ => sigma2)
    else none
  LamdO.map (fun Lamd =>
    let A_l : Mat nu nf := fun i j => A i j / Lamd j
    let L_B := la.chol (ttEye nu + A_l * Aᵀ)
    let r := y - m.app X
    let r_l := fun j => r j / Lamd j
    let c := la.solveLowerV L_B (A *ᵥ r_l)
    let Kus := K.full2 Xu Xs
    let As := la.solveLowerM Luu Kus
    let mean := Asᵀ *ᵥ la.solveUpperV L_Bᵀ c
    let C := la.solveLowerM L_B As
    let cov :=
      if obs_noise then
        K.full2 Xs Xs - Asᵀ * As + Cᵀ * C + sigma2 • ttEye ns
      else
        K.full2 Xs Xs - Asᵀ * As + Cᵀ * C
    (mean, stabilize cov))

/-- Modelled from claim C3's words: the sparse logp as it would read if every
matrix passed to a Cholesky decomposition had stabilize applied to it
immediately beforehand — identical to sparseLogp except that the Woodbury
matrix eye(nu) + A_l Aᵗ is stabilized before its Cholesky. -/
def claimSparseLogpStabLB {d nf nu : ℕ} (la : LinAlg) (K : KernelFn d) (m : MeanFn d)
    (X : Matrix (Fin nf) (Fin d) ℝ) (Xu : Matrix (Fin nu) (Fin d) ℝ)
    (sigma : ℝ) (approx : String) (y : Fin nf → ℝ) : Option ℝ :=
  let sigma2 := sigma ^ 2
  let Kuu := K.full2 Xu Xu
  let Kuf := K.full2 Xu X
  let Luu := la.chol (stabilize Kuu)
  let A := la.solveLowerM Luu Kuf
  let Qffd : Fin nf → ℝ := fun j => ∑ i, A i j * A i j
  let LamdTrace : Option ((Fin nf → ℝ) × ℝ) :=
    if approx = "FITC" then
      let Kffd := K.dg X
      some (fun j => ttClip0 (Kffd j - Qffd j) + sigma2, 0.0)
    else if approx = "VFE" then
      some (fun _ => sigma2,
            (1.0 / (2.0 * sigma2)) * ((∑ j, K.dg X j) - ∑ j, ∑ i, A i j * A i j)
      )
    else none
  LamdTrace.map (fun p =>
    let Lamd := p.1
    let trace := p.2
    let A_l : Mat nu nf := fun i j => A i j / Lamd j
    let L_B := la.chol (stabilize (ttEye nu + A_l * Aᵀ))
    let r := y - m.app X
    let r_l := fun j => r j / Lamd j
    let c := la.solveLowerV L_B (A *ᵥ r_l)
    let constant := 0.5 * (nf : ℝ) * Real.log (2.0 * Real.pi)
    let logdet := 0.5 * (∑ j, Real.log (Lamd j)) + ∑ i, Real.log (L_B i i)
    let quadratic := 0.5 * ((∑ j, r j * r_l j) - ∑ i, c i * c i)
    let total := -1.0 * (constant + logdet + quadratic + trace)
    total)

/-- Modelled from claim C3's words for the conditional method: the sparse
conditional as it would read if every matrix passed to a Cholesky
decomposition had stabilize applied to it immediately beforehand —
identical to sparseConditional except that the Woodbury matrix
eye(nu) + A_l Aᵗ is stabilized before its Cholesky. -/
def claimSparseCondStabLB {d nf nu ns : ℕ} (la : LinAlg) (K : KernelFn d) (m : MeanFn d)
    (X : Matrix (Fin nf) (Fin d) ℝ) (Xu : Matrix (Fin nu) (Fin d) ℝ)
    (sigma : ℝ) (approx : String) (Xs : Matrix (Fin ns) (Fin d) ℝ)
    (y : Fin nf → ℝ) (obs_noise : Bool) : Option ((Fin ns → ℝ) × Mat ns ns) :=
  let sigma2 := sigma ^ 2
  let Kuu := K.full1 Xu
  let Kuf := K.full2 Xu X
  let Luu := la.chol (stabilize Kuu)
  let A := la.solveLowerM Luu Kuf
  let Qffd : Fin nf → ℝ := fun j => ∑ i, A i j * A i j
  let LamdO : Option (Fin nf → ℝ) :=
    if approx = "FITC" then
      let Kffd := K.dg X
      some (fun j => ttClip0 (Kffd j - Qffd j) + sigma2)
    else if approx = "VFE" then some (fun _ => sigma2)
    else none
  LamdO.map (fun Lamd =>
    let A_l : Mat nu nf := fun i j => A i j / Lamd j
    let L_B := la.chol (stabilize (ttEye nu + A_l * Aᵀ))
    let r := y - m.app X
    let r_l := fun j => r j / Lamd j
    let c := la.solveLowerV L_B (A *ᵥ r_l)
    let Kus := K.full2 Xu Xs
    let As := la.solveLowerM Luu Kus
    let mean := Asᵀ *ᵥ la.solveUpperV L_Bᵀ c
    let C := la.solveLowerM L_B As
    let cov :=
      if obs_noise then
        K.full2 Xs Xs - Asᵀ * As + Cᵀ * C + sigma2 • ttEye ns
      else
        K.full2 Xs Xs - Asᵀ * As + Cᵀ * C
    (mean, stabilize cov))

/-- The body of GPFullConjugate.conditional with the Cholesky factor L as an
explicit argument, used to display which matrix the method decomposes. -/
def fullConditionalGivenL {d nf ns : ℕ} (la : LinAlg) (L : Mat nf nf)
    (K : KernelFn d) (Kn : NoiseFn d) (m : MeanFn d)
    (X : Matrix (Fin nf) (Fin d) ℝ) (Xs : Matrix (Fin ns) (Fin d) ℝ)
    (y : Fin nf → ℝ) (obs_noise : Bool) : (Fin ns → ℝ) × Mat ns ns :=
  let Kxs := K.full2 X Xs
  let Kss := K.full1 Xs
  let r := y - m.app X
  let A := la.solveLowerM L Kxs
  let V := la.solveLowerV L r
  let mean := Aᵀ *ᵥ V + m.app Xs
  let cov := if obs_noise then Kn Xs + Kss - Aᵀ * A else Kss - Aᵀ * A
  (mean, stabilize cov)

/-- Embedding of GPFullConjugate.logp (gp.py lines 254-257): the exact
multivariate-normal log density is an external collaborator, consumed as a
function of the mean, the Cholesky factor and the observations; the code
supplies it chol = cholesky(stabilize(K(X,X)) + noise(X,X)). -/
def fullLogp {d nf : ℕ} (la : LinAlg)
    (mvnCholLogp : (Fin nf → ℝ) → Mat nf nf → (Fin nf → ℝ) → ℝ)
    (K : KernelFn d) (Kn : NoiseFn d) (m : MeanFn d)
    (X : Matrix (Fin nf) (Fin d) ℝ) (y : Fin nf → ℝ) : ℝ :=
  mvnCholLogp (m.app X) (la.chol (stabilize (K.full1 X) + Kn X)) y

/-- The FITC effective noise vector exactly as claim C2 words it:
Lamd = clip(K_diag(X) - Qffd, 0, inf) + sigma-squared, where
Qffd = colsum(A element-wise A). -/
def claimLamdFITC {d nf nu : ℕ} (K : KernelFn d) (X : Matrix (Fin nf) (Fin d) ℝ)
    (A : Mat nu nf) (sigma : ℝ) : Fin nf → ℝ :=
  fun j => ttClip0 (K.dg X j - ∑ i, A i j * A i j) + sigma ^ 2

/-- The VFE trace penalty exactly as claim C2 words it:
(1/(2 sigma-squared)) * (sum of K_diag(X) - sum of Qffd). -/
def claimTraceVFE {d nf nu : ℕ} (K : KernelFn d) (X : Matrix (Fin nf) (Fin d) ℝ)
    (A : Mat nu nf) (sigma : ℝ) : ℝ :=
  (1.0 / (2.0 * sigma ^ 2)) * ((∑ j, K.dg X j) - ∑ j, ∑ i, A i j * A i j)

/-- The sparse logp formula exactly as claim C2 words it:
-(0.5 n log(2 pi) + 0.5 sum(log Lamd) + sum(log diag(L_B)) +
0.5 (r r_l - c c) + trace_term), with the downstream quantities built from a
given effective-noise vector Lamd. -/
def claimSparseLogpFormula {d nf nu : ℕ} (la : LinAlg) (m : MeanFn d)
    (X : Matrix (Fin nf) (Fin d) ℝ) (A : Mat nu nf)
    (Lamd : Fin nf → ℝ) (traceTerm : ℝ) (y : Fin nf → ℝ) : ℝ :=
  let A_l : Mat nu nf := fun i j => A i j / Lamd j
  let L_B := la.chol (ttEye nu + A_l * Aᵀ)
  let r := y - m.app X
  let r_l := fun j => r j / Lamd j
  let c := la.solveLowerV L_B (A *ᵥ r_l)
  let total := -(0.5 * (nf : ℝ) * Real.log (2.0 * Real.pi)
    + 0.5 * (∑ j, Real.log (Lamd j)) + (∑ i, Real.log (L_B i i))
    + 0.5 * ((∑ j, r j * r_l j) - ∑ i, c i * c i)
    + traceTerm)
  total

/-- The matrix A = solve_lower(Luu, Kuf) that GPSparseConjugate.logp builds,
with Luu = cholesky(stabilize(K(Xu,Xu))) and Kuf = K(Xu,X). -/
def sparseLogpA {d nf nu : ℕ} (la : LinAlg) (K : KernelFn d)
    (X : Matrix (Fin nf) (Fin d) ℝ) (Xu : Matrix (Fin nu) (Fin d) ℝ) : Mat nu nf :=
  la.solveLowerM (la.chol (stabilize (K.full2 Xu Xu))) (K.full2 Xu X)

end RealEmbedding

/-- The exceptions the GP constructor and the kernel constructors can raise. -/
inductive GPErr where
  | meanNotMean
  | covMissing
  | covNotCov
  | noiseMissing
  | attributeNoneUpper
  | badApprox
  | inducingMissing
  deriving DecidableEq, Repr

/-- The variant a successful call of the GP constructor dispatches to.  For
the sparse variant we record the approximation string actually stored and
whether it was filled in by the dead "Using VFE approximation" default
branch (gp.py lines 101-103). -/
inductive GPResult where
  | nonConjugate
  | fullConjugate (noiseFromSigma : Bool)
  | sparseConjugate (approx : String) (approxDefaulted : Bool)
  deriving DecidableEq, Repr

/-- Embedding of the argument-dispatch logic of the GP constructor
(gp.py lines 31-115).  Arguments that only matter by their presence or their
type are carried as booleans; approx is carried with its full value.
approx.upper() evaluated on None raises AttributeError, modelled by the
error value attributeNoneUpper. -/
def gpDispatch (meanGiven meanIsMean covGiven covIsCov observedGiven : Bool)
    (sigmaGiven covNoiseGiven : Bool) (approx : Option String)
    (nInducingGiven inducingGiven : Bool) : Except GPErr GPResult :=
  if meanGiven && !meanIsMean then .error .meanNotMean
  else if !covGiven then .error .covMissing
  else if !covIsCov then .error .covNotCov
  else if !observedGiven then .ok .nonConjugate
  else if approx = none && !nInducingGiven && !inducingGiven then
    if !sigmaGiven && !covNoiseGiven then .error .noiseMissing
    else .ok (.fullConjugate (sigmaGiven && !covNoiseGiven))
  else
    match approx with
    | none => .error .attributeNoneUpper
    | some a =>
      let approxU : Option String := some a.toUpper
      let inducingGiven2 := inducingGiven || nInducingGiven
      let ad : String × Bool :=
        match approxU with
        | none => ("VFE", true)
        | some s => (s, false)
      if ad.1 ≠ "VFE" && ad.1 ≠ "FITC" then .error .badApprox
      else if !inducingGiven2 then .error .inducingMissing
      else .ok (.sparseConjugate ad.1 ad.2)

/-- The error message numpy.random.choice raises for a sample larger than
the population when replace=False; sample_gp always calls it with
replace=False. -/
def npChoiceError : String :=
  "Cannot take a larger sample than population when replace=False"

/-- The contract of the sampling collaborator numpy.random.choice(arange(pop),
k, replace=False): given the permutation of 0..pop-1 the generator would
produce, it returns its first k entries, and fails if k exceeds pop. -/
def npChoiceNoReplace (pop k : ℕ) (perm : List ℕ) : Except String (List ℕ) :=
  if k ≤ pop then .ok (perm.take k) else .error npChoiceError

/-- Embedding of the index-selection step of sample_gp (gp.py lines 406-411):
n_samples defaults to len(trace), and the indices come from
np.random.choice(np.arange(len(trace)), n_samples, replace=False). -/
def sampleGPIndices (traceLen : ℕ) (nSamples : Option ℕ) (perm : List ℕ) :
    Except String (List ℕ) :=
  let n := nSamples.getD traceLen
  npChoiceNoReplace traceLen n perm

noncomputable section CovAlgebra

/-- Embedding of Covariance._slice: X[:, active_dims], with the selected
columns described by a map from the kernel's a operating dimensions into the
d columns of the input. -/
def sliceM {r a d : ℕ} (ad : Fin a → Fin d) (X : Matrix (Fin r) (Fin d) ℝ) :
    Matrix (Fin r) (Fin a) ℝ :=
  fun i j => X i (ad j)

/-- Embedding of Stationary.square_dist for Xs=None: scale the inputs by
1/lengthscales, then -2 X Xᵗ + (rownorms + rownormsᵗ), clipped at 0. -/
def square_dist {r a : ℕ} (ls : Fin a → ℝ) (X : Matrix (Fin r) (Fin a) ℝ) :
    Mat r r :=
  let Xl : Matrix (Fin r) (Fin a) ℝ := fun i j => X i j * (1.0 / ls j)
  let X2 : Fin r → ℝ := fun i => ∑ j, (Xl i j) ^ 2
  fun i k => ttClip0 (-2.0 * (∑ j, Xl i j * Xl k j) + (X2 i + X2 k))

/-- Embedding of Stationary.euclidean_dist: sqrt(square_dist + 1e-12). -/
def euclidean_dist {r a : ℕ} (ls : Fin a → ℝ) (X : Matrix (Fin r) (Fin a) ℝ) :
    Mat r r :=
  fun i k => Real.sqrt (square_dist ls X i k + 1e-12)

/-- Embedding of Stationary.diag: a vector of ones of length X.shape[0],
used unchanged by all six stationary kernel families. -/
def stationaryDiag {r d : ℕ} (_X : Matrix (Fin r) (Fin d) ℝ) : Fin r → ℝ :=
  fun _ => 1

/-- Embedding of ExpQuad.full (after _slice): exp(-0.5 * square_dist). -/
def expQuadFull {r a d : ℕ} (ad : Fin a → Fin d) (ls : Fin a → ℝ)
    (X : Matrix (Fin r) (Fin d) ℝ) : Mat r r :=
  fun i k => Real.exp (-0.5 * square_dist ls (sliceM ad X) i k)

/-- Embedding of RatQuad.full: (1 + 0.5 square_dist / alpha) ** (-alpha),
with ** real exponentiation. -/
def ratQuadFull {r a d : ℕ} (ad : Fin a → Fin d) (ls : Fin a → ℝ) (alpha : ℝ)
    (X : Matrix (Fin r) (Fin d) ℝ) : Mat r r :=
  fun i k =>
    (1.0 + 0.5 * square_dist ls (sliceM ad X) i k * (1.0 / alpha)) ^ (-1.0 * alpha)

/-- Embedding of Matern52.full:
(1 + sqrt(5) r + 5/3 r^2) exp(-sqrt(5) r) at r = euclidean_dist. -/
def matern52Full {r a d : ℕ} (ad : Fin a → Fin d) (ls : Fin a → ℝ)
    (X : Matrix (Fin r) (Fin d) ℝ) : Mat r r :=
  fun i k =>
    let rr := euclidean_dist ls (sliceM ad X) i k
    (1.0 + Real.sqrt 5.0 * rr + 5.0 / 3.0 * rr ^ 2)
      * Real.exp (-1.0 * Real.sqrt 5.0 * rr)

/-- Embedding of Matern32.full: (1 + sqrt(3) r) exp(-sqrt(3) r). -/
def matern32Full {r a d : ℕ} (ad : Fin a → Fin d) (ls : Fin a → ℝ)
    (X : Matrix (Fin r) (Fin d) ℝ) : Mat r r :=
  fun i k =>
    let rr := euclidean_dist ls (sliceM ad X) i k
    (1.0 + Real.sqrt 3.0 * rr) * Real.exp (-(Real.sqrt 3.0) * rr)

/-- Embedding of Exponential.full: exp(-0.5 r) at r = euclidean_dist. -/
def exponentialFull {r a d : ℕ} (ad : Fin a → Fin d) (ls : Fin a → ℝ)
    (X : Matrix (Fin r) (Fin d) ℝ) : Mat r r :=
  fun i k => Real.exp (-0.5 * euclidean_dist ls (sliceM ad X) i k)

/-- Embedding of Cosine.full: cos(pi r) at r = euclidean_dist. -/
def cosineFull {r a d : ℕ} (ad : Fin a → Fin d) (ls : Fin a → ℝ)
    (X : Matrix (Fin r) (Fin d) ℝ) : Mat r r :=
  fun i k => Real.cos (Real.pi * euclidean_dist ls (sliceM ad X) i k)

/-- An operand of a Sum/Product combination, and the covariance objects that
can be built from them.  base carries the values a primitive kernel returns
on the ambient inputs (its full matrix and its diagonal vector); arr is a
two-dimensional constant operand (numpy array or theano tensor); scal is a
scalar operand.  add and prod hold the factor_list of a Combination. -/
inductive CovT (n : ℕ) : Type where
  | base (full : Mat n n) (dg : Fin n → ℝ)
  | arr (M : Mat n n)
  | scal (x : ℝ)
  | add (factors : List (CovT n))
  | prod (factors : List (CovT n))

/-- True for the operands that are instances of Covariance. -/
def isCovariance {n : ℕ} : CovT n → Bool
  | .base _ _ => true
  | .add _ => true
  | .prod _ => true
  | _ => false

/-- True exactly for an Add combination. -/
def isAdd {n : ℕ} : CovT n → Bool
  | .add _ => true
  | _ => false

/-- True exactly for a Prod combination. -/
def isProd {n : ℕ} : CovT n → Bool
  | .prod _ => true
  | _ => false

/-- One step of Combination.__init__'s factor-list merge for Add: a factor
that is itself an Add contributes its factor_list, anything else
contributes itself. -/
def flatAdd {n : ℕ} : CovT n → List (CovT n)
  | .add l => l
  | k => [k]

/-- One step of Combination.__init__'s factor-list merge for Prod. -/
def flatProd {n : ℕ} : CovT n → List (CovT n)
  | .prod l => l
  | k => [k]

/-- The factor_list Combination.__init__ stores for Add(factor_list). -/
def flattenAdd {n : ℕ} : List (CovT n) → List (CovT n)
  | [] => []
  | k :: rest => flatAdd k ++ flattenAdd rest

/-- The factor_list Combination.__init__ stores for Prod(factor_list). -/
def flattenProd {n : ℕ} : List (CovT n) → List (CovT n)
  | [] => []
  | k :: rest => flatProd k ++ flattenProd rest

/-- Embedding of constructing Add(factor_list) (cov.py lines 94-105, 139). -/
def mkAdd {n : ℕ} (l : List (CovT n)) : CovT n := .add (flattenAdd l)

/-- Embedding of constructing Prod(factor_list) (cov.py lines 94-105, 144). -/
def mkProd {n : ℕ} (l : List (CovT n)) : CovT n := .prod (flattenProd l)

/-- The value of one merged term: a full matrix, a diagonal/1-d vector, or a
scalar, combined under numpy broadcasting. -/
inductive Val (n : ℕ) : Type where
  | mat (M : Mat n n)
  | vec (v : Fin n → ℝ)
  | scal (x : ℝ)

/-- Numpy's broadcasting of an elementwise binary operation over the merged
values: a vector pairs with the second index of a matrix, scalars pair with
everything. -/
def valOp {n : ℕ} (op : ℝ → ℝ → ℝ) : Val n → Val n → Val n
  | .mat a, .mat b => .mat fun i j => op (a i j) (b i j)
  | .mat a, .vec w => .mat fun i j => op (a i j) (w j)
  | .mat a, .scal y => .mat fun i j => op (a i j) y
  | .vec v, .mat b => .mat fun i j => op (v j) (b i j)
  | .vec v, .vec w => .vec fun i => op (v i) (w i)
  | .vec v, .scal y => .vec fun i => op (v i) y
  | .scal x, .mat b => .mat fun i j => op x (b i j)
  | .scal x, .vec w => .vec fun i => op x (w i)
  | .scal x, .scal y => .scal (op x y)

/-- Python's functools.reduce: it fails on an empty list and otherwise folds
the operator over the list from the left. -/
def pyReduce {α : Type} (op : α → α → α) : List α → Option α
  | [] => none
  | x :: xs => some (xs.foldl op x)

mutual

/-- Embedding of calling a Covariance operand with a given diag flag:
a base kernel returns its diagonal or its full matrix, Add and Prod reduce
their merged factor values with + and *; constant operands are not callable
(calling them raises in Python, modelled as none). -/
def covCall {n : ℕ} (diag : Bool) : CovT n → Option (Val n)
  | .base full dg => if diag then some (.vec dg) else some (.mat full)
  | .arr _ => none
  | .scal _ => none
  | .add fl => (mergeFactors diag fl).bind (pyReduce (valOp (· + ·)))
  | .prod fl => (mergeFactors diag fl).bind (pyReduce (valOp (· * ·)))

/-- Embedding of Combination.merge_factors (cov.py lines 107-136): a
Covariance factor is evaluated with the same diag flag; a two-dimensional
constant factor is reduced to its diagonal when diag is true and kept whole
otherwise; anything else is appended unchanged. -/
def mergeFactors {n : ℕ} (diag : Bool) : List (CovT n) → Option (List (Val n))
  | [] => some []
  | .arr M :: rest =>
      (mergeFactors diag rest).map
        (fun vs => (if diag then Val.vec (Matrix.diag M) else Val.mat M) :: vs)
  | .scal x :: rest =>
      (mergeFactors diag rest).map (fun vs => Val.scal x :: vs)
  | f :: rest =>
      match covCall diag f, mergeFactors diag rest with
      | some v, some vs => some (v :: vs)
      | _, _ => none

end

/-- Reading a diag-mode value as the length-n vector it broadcasts to; a
full matrix never occurs in diag mode and is given a junk reading. -/
def asVec {n : ℕ} : Val n → Fin n → ℝ
  | .vec v => v
  | .scal x => fun _ => x
  | .mat _ => fun _ => 0

/-- The values that can occur in a diag-mode merged factor list. -/
def IsDiagVal {n : ℕ} : Val n → Prop
  | .mat _ => False
  | _ => True

/-- The relation claim C4 asserts between an operand and the value it
contributes to a diag-mode combination: a two-dimensional constant operand
contributes exactly its diagonal, a scalar contributes itself, and a
Covariance operand contributes its own diag-mode evaluation. -/
def diagContribution {n : ℕ} : CovT n → Val n → Prop
  | .arr M, v => v = .vec (Matrix.diag M)
  | .scal x, v => v = .scal x
  | k, v => covCall true k = some v

end CovAlgebra

/-- Errors raised during kernel construction. -/
inductive CovErr where
  | activeDimsLength
  | higherDimUntested
  | lengthscaleNotCallable
  deriving DecidableEq, Repr

/-- Embedding of Covariance.__init__ (cov.py lines 32-39): with active_dims
given, its length must match input_dim. -/
def covarianceInit (input_dim : ℕ) (active_dims : Option (List ℕ)) :
    Except CovErr Unit :=
  match active_dims with
  | none => .ok ()
  | some l => if l.length ≠ input_dim then .error .activeDimsLength else .ok ()

/-- Embedding of Gibbs.__init__ (cov.py lines 415-429): first the base-class
check runs, then "if active_dims is not None: if input_dim != 1 or
sum(active_dims) == 1: raise NotImplementedError" (else branch: input_dim
must be 1), then the lengthscale function must be callable.  active_dims
entries are the booleans of the base-class contract, carried as 0/1. -/
def gibbsInit (input_dim : ℕ) (active_dims : Option (List ℕ))
    (lengthscaleCallable : Bool) : Except CovErr Unit := do
  covarianceInit input_dim active_dims
  match active_dims with
  | some l =>
    if input_dim ≠ 1 ∨ l.sum = 1 then throw .higherDimUntested else pure ()
  | none =>
    if input_dim ≠ 1 then throw .higherDimUntested else pure ()
  if !lengthscaleCallable then throw .lengthscaleNotCallable
  pure ()

/-! ## Theorems -/

section CombinationLemmas

theorem valOp_diagVal {n : ℕ} (op : ℝ → ℝ → ℝ) (a b : Val n)
    (ha : IsDiagVal a) (hb : IsDiagVal b) : IsDiagVal (valOp op a b) := by
  cases a <;> cases b <;> simp_all [IsDiagVal, valOp]

theorem foldl_valOp_diagVal {n : ℕ} (op : ℝ → ℝ → ℝ) (l : List (Val n))
    (v0 : Val n) (h0 : IsDiagVal v0) (hl : ∀ x ∈ l, IsDiagVal x) :
    IsDiagVal (l.foldl (valOp op) v0) := by
  induction l generalizing v0 with
  | nil => exact h0
  | cons x xs ih =>
    exact ih _ (valOp_diagVal op v0 x h0 (hl x (by simp)))
      (fun y hy => hl y (by simp [hy]))

theorem pyReduce_diagVal {n : ℕ} (op : ℝ → ℝ → ℝ) (l : List (Val n)) (v : Val n)
    (hl : ∀ x ∈ l, IsDiagVal x) (h : pyReduce (valOp op) l = some v) :
    IsDiagVal v := by
  cases l with
  | nil => simp [pyReduce] at h
  | cons x xs =>
    simp only [pyReduce, Option.some.injEq] at h
    subst h
    exact foldl_valOp_diagVal op xs x (hl x (by simp)) (fun y hy => hl y (by simp [hy]))

mutual

theorem covCall_true_diagVal {n : ℕ} (k : CovT n) (v : Val n)
    (h : covCall true k = some v) : IsDiagVal v := by
  cases k with
  | base full dg =>
    simp only [covCall, if_pos, Option.some.injEq] at h
    rw [← h]
    trivial
  | arr M => simp [covCall] at h
  | scal x => simp [covCall] at h
  | add fl =>
    rw [show covCall true (CovT.add fl)
          = (mergeFactors true fl).bind (pyReduce (valOp (· + ·))) from rfl] at h
    rcases hm : mergeFactors true fl with _ | vs
    · rw [hm] at h; simp at h
    · rw [hm] at h
      exact pyReduce_diagVal _ _ _ (mergeFactors_true_diagVal fl vs hm) h
  | prod fl =>
    rw [show covCall true (CovT.prod fl)
          = (mergeFactors true fl).bind (pyReduce (valOp (· * ·))) from rfl] at h
    rcases hm : mergeFactors true fl with _ | vs
    · rw [hm] at h; simp at h
    · rw [hm] at h
      exact pyReduce_diagVal _ _ _ (mergeFactors_true_diagVal fl vs hm) h

theorem mergeFactors_true_diagVal {n : ℕ} (fl : List (CovT n)) (vs : List (Val n))
    (h : mergeFactors true fl = some vs) : ∀ v ∈ vs, IsDiagVal v := by
  cases fl with
  | nil =>
    simp only [mergeFactors, Option.some.injEq] at h
    subst h; intro v hv; cases hv
  | cons f rest =>
    cases f with
    | arr M =>
      simp only [mergeFactors, if_pos, Option.map_eq_some'] at h
      obtain ⟨vs', hrest, rfl⟩ := h
      intro v hv
      rcases List.mem_cons.mp hv with rfl | hv
      · trivial
      · exact mergeFactors_true_diagVal rest vs' hrest v hv
    | scal x =>
      simp only [mergeFactors, Option.map_eq_some'] at h
      obtain ⟨vs', hrest, rfl⟩ := h
      intro v hv
      rcases List.mem_cons.mp hv with rfl | hv
      · trivial
      · exact mergeFactors_true_diagVal rest vs' hrest v hv
    | base full dg =>
      rw [show mergeFactors true (CovT.base full dg :: rest)
            = (match covCall true (CovT.base full dg), mergeFactors true rest with
               | some v, some vs => some (v :: vs)
               | _, _ => none) from rfl] at h
      rcases hc : covCall true (CovT.base full dg) with _ | v₁ <;> rw [hc] at h
      · simp at h
      · rcases hr : mergeFactors true rest with _ | vs' <;> rw [hr] at h
        · simp at h
        · simp only [Option.some.injEq] at h
          subst h
          intro v hv
          rcases List.mem_cons.mp hv with rfl | hv
          · exact covCall_true_diagVal _ _ hc
          · exact mergeFactors_true_diagVal rest vs' hr v hv
    | add fl' =>
      rw [show mergeFactors true (CovT.add fl' :: rest)
            = (match covCall true (CovT.add fl'), mergeFactors true rest with
               | some v, some vs => some (v :: vs)
               | _, _ => none) from rfl] at h
      rcases hc : covCall true (CovT.add fl') with _ | v₁ <;> rw [hc] at h
      · simp at h
      · rcases hr : mergeFactors true rest with _ | vs' <;> rw [hr] at h
        · simp at h
        · simp only [Option.some.injEq] at h
          subst h
          intro v hv
          rcases List.mem_cons.mp hv with rfl | hv
          · exact covCall_true_diagVal _ _ hc
          · exact mergeFactors_true_diagVal rest vs' hr v hv
    | prod fl' =>
      rw [show mergeFactors true (CovT.prod fl' :: rest)
            = (match covCall true (CovT.prod fl'), mergeFactors true rest with
               | some v, some vs => some (v :: vs)
               | _, _ => none) from rfl] at h
      rcases hc : covCall true (CovT.prod fl') with _ | v₁ <;> rw [hc] at h
      · simp at h
      · rcases hr : mergeFactors true rest with _ | vs' <;> rw [hr] at h
        · simp at h
        · simp only [Option.some.injEq] at h
          subst h
          intro v hv
          rcases List.mem_cons.mp hv with rfl | hv
          · exact covCall_true_diagVal _ _ hc
          · exact mergeFactors_true_diagVal rest vs' hr v hv

end

theorem mergeFactors_diagContribution {n : ℕ} (fl : List (CovT n)) (vs : List (Val n))
    (h : mergeFactors true fl = some vs) : List.Forall₂ diagContribution fl vs := by
  induction fl generalizing vs with
  | nil =>
    simp only [mergeFactors, Option.some.injEq] at h
    subst h; exact List.Forall₂.nil
  | cons f rest ih =>
    cases f with
    | arr M =>
      simp only [mergeFactors, if_pos, Option.map_eq_some'] at h
      obtain ⟨vs', hrest, rfl⟩ := h
      exact List.Forall₂.cons rfl (ih _ hrest)
    | scal x =>
      simp only [mergeFactors, Option.map_eq_some'] at h
      obtain ⟨vs', hrest, rfl⟩ := h
      exact List.Forall₂.cons rfl (ih _ hrest)
    | base full dg =>
      rw [show mergeFactors true (CovT.base full dg :: rest)
            = (match covCall true (CovT.base full dg), mergeFactors true rest with
               | some v, some vs => some (v :: vs)
               | _, _ => none) from rfl] at h
      rcases hc : covCall true (CovT.base full dg) with _ | v₁ <;> rw [hc] at h
      · simp at h
      · rcases hr : mergeFactors true rest with _ | vs' <;> rw [hr] at h
        · simp at h
        · simp only [Option.some.injEq] at h
          subst h
          exact List.Forall₂.cons hc (ih _ hr)
    | add fl' =>
      rw [show mergeFactors true (CovT.add fl' :: rest)
            = (match covCall true (CovT.add fl'), mergeFactors true rest with
               | some v, some vs => some (v :: vs)
               | _, _ => none) from rfl] at h
      rcases hc : covCall true (CovT.add fl') with _ | v₁ <;> rw [hc] at h
      · simp at h
      · rcases hr : mergeFactors true rest with _ | vs' <;> rw [hr] at h
        · simp at h
        · simp only [Option.some.injEq] at h
          subst h
          exact List.Forall₂.cons hc (ih _ hr)
    | prod fl' =>
      rw [show mergeFactors true (CovT.prod fl' :: rest)
            = (match covCall true (CovT.prod fl'), mergeFactors true rest with
               | some v, some vs => some (v :: vs)
               | _, _ => none) from rfl] at h
      rcases hc : covCall true (CovT.prod fl') with _ | v₁ <;> rw [hc] at h
      · simp at h
      · rcases hr : mergeFactors true rest with _ | vs' <;> rw [hr] at h
        · simp at h
        · simp only [Option.some.injEq] at h
          subst h
          exact List.Forall₂.cons hc (ih _ hr)

theorem asVec_valOp {n : ℕ} (op : ℝ → ℝ → ℝ) (a b : Val n)
    (ha : IsDiagVal a) (hb : IsDiagVal b) :
    asVec (valOp op a b) = fun i => op (asVec a i) (asVec b i) := by
  cases a <;> cases b <;> simp_all [IsDiagVal, valOp, asVec]

theorem asVec_foldl {n : ℕ} (op : ℝ → ℝ → ℝ) (l : List (Val n)) (v0 : Val n)
    (h0 : IsDiagVal v0) (hl : ∀ x ∈ l, IsDiagVal x) (i : Fin n) :
    asVec (l.foldl (valOp op) v0) i
      = (l.map (fun v => asVec v i)).foldl op (asVec v0 i) := by
  induction l generalizing v0 with
  | nil => rfl
  | cons x xs ih =>
    simp only [List.foldl, List.map]
    rw [ih _ (valOp_diagVal op v0 x h0 (hl x (by simp)))
        (fun y hy => hl y (by simp [hy]))]
    rw [asVec_valOp op v0 x h0 (hl x (by simp))]

end CombinationLemmas

section StationaryLemmas

theorem square_dist_diag {r a : ℕ} (ls : Fin a → ℝ)
    (X : Matrix (Fin r) (Fin a) ℝ) (i : Fin r) : square_dist ls X i i = 0 := by
  simp only [square_dist, ttClip0]
  have hs : (∑ j, X i j * (1.0 / ls j) * (X i j * (1.0 / ls j)))
      = ∑ j, (X i j * (1.0 / ls j)) ^ 2 :=
    Finset.sum_congr rfl (fun j _ => (sq (X i j * (1.0 / ls j))).symm ▸ (pow_two _).symm)
  rw [hs]
  have hz : -2.0 * (∑ j, (X i j * (1.0 / ls j)) ^ 2)
      + ((∑ j, (X i j * (1.0 / ls j)) ^ 2) + ∑ j, (X i j * (1.0 / ls j)) ^ 2) = 0 := by
    ring
  rw [hz]
  exact max_self 0

theorem euclidean_dist_diag {r a : ℕ} (ls : Fin a → ℝ)
    (X : Matrix (Fin r) (Fin a) ℝ) (i : Fin r) :
    euclidean_dist ls X i i = 1e-6 := by
  simp only [euclidean_dist]
  rw [square_dist_diag, zero_add,
    show (1e-12 : ℝ) = (1e-6 : ℝ) ^ 2 by norm_num,
    Real.sqrt_sq (by norm_num)]

theorem one_add_mul_exp_neg_bounds (x : ℝ) (hx0 : 0 ≤ x) (_hx1 : x ≤ 1) :
    1 - x ^ 2 ≤ (1 + x) * Real.exp (-x) ∧ (1 + x) * Real.exp (-x) ≤ 1 := by
  have hexp : -x + 1 ≤ Real.exp (-x) := Real.add_one_le_exp (-x)
  have hexp2 : x + 1 ≤ Real.exp x := Real.add_one_le_exp x
  constructor
  · have h2 : (1 + x) * (1 - x) ≤ (1 + x) * Real.exp (-x) :=
      mul_le_mul_of_nonneg_left (by linarith) (by linarith)
    nlinarith
  · have h1 : (1 + x) * Real.exp (-x) ≤ Real.exp x * Real.exp (-x) :=
      mul_le_mul_of_nonneg_right (by linarith) (Real.exp_nonneg _)
    rw [← Real.exp_add] at h1
    simp only [add_neg_cancel, Real.exp_zero] at h1
    exact h1

theorem matern52_core_bounds (x : ℝ) (hx0 : 0 ≤ x) (hx1 : x ≤ 1) :
    1 - x ^ 2 ≤ (1 + x + x ^ 2 / 3) * Real.exp (-x) ∧
    (1 + x + x ^ 2 / 3) * Real.exp (-x) ≤ 1 := by
  have hexp : -x + 1 ≤ Real.exp (-x) := Real.add_one_le_exp (-x)
  have ha : 1 + x / 3 ≤ Real.exp (x / 3) := by
    linarith [Real.add_one_le_exp (x / 3)]
  have hcube : (Real.exp (x / 3)) ^ 3 = Real.exp x := by
    rw [pow_succ, pow_succ, pow_one, ← Real.exp_add, ← Real.exp_add]
    ring_nf
  have hb : (1 + x / 3) ^ 3 ≤ Real.exp x := by
    calc (1 + x / 3) ^ 3 ≤ (Real.exp (x / 3)) ^ 3 :=
          pow_le_pow_left₀ (by linarith) ha 3
      _ = Real.exp x := hcube
  have hpoly : 1 + x + x ^ 2 / 3 ≤ Real.exp x := by nlinarith
  constructor
  · have h2 : (1 + x + x ^ 2 / 3) * (1 - x) ≤ (1 + x + x ^ 2 / 3) * Real.exp (-x) :=
      mul_le_mul_of_nonneg_left (by linarith) (by nlinarith)
    nlinarith
  · have h1 : (1 + x + x ^ 2 / 3) * Real.exp (-x) ≤ Real.exp x * Real.exp (-x) :=
      mul_le_mul_of_nonneg_right hpoly (Real.exp_nonneg _)
    rw [← Real.exp_add] at h1
    simp only [add_neg_cancel, Real.exp_zero] at h1
    exact h1

theorem exp_neg_close_to_one (t : ℝ) (ht : 0 ≤ t) :
    |Real.exp (-t) - 1| ≤ t := by
  rw [abs_le]
  have h1 : -t + 1 ≤ Real.exp (-t) := Real.add_one_le_exp (-t)
  have h2 : Real.exp (-t) ≤ 1 := by
    rw [show (1 : ℝ) = Real.exp 0 from (Real.exp_zero).symm]
    exact Real.exp_le_exp.mpr (by linarith)
  constructor <;> linarith

theorem sqrt_five_le : Real.sqrt 5.0 ≤ 2.5 := by
  rw [show (2.5 : ℝ) = Real.sqrt (2.5 ^ 2) from (Real.sqrt_sq (by norm_num)).symm]
  exact Real.sqrt_le_sqrt (by norm_num)

theorem sqrt_three_le : Real.sqrt 3.0 ≤ 2 := by
  rw [show (2 : ℝ) = Real.sqrt (2 ^ 2) from (Real.sqrt_sq (by norm_num)).symm]
  exact Real.sqrt_le_sqrt (by norm_num)

end StationaryLemmas

/-- C6: for every stationary kernel family (ExpQuad, RatQuad, Matern52,
Matern32, Exponential, Cosine) and every input batch, the diag path returns
the all-ones vector, and it agrees elementwise with the diagonal of the
full-matrix evaluation to within 1e-6: the full path evaluates the kernel
formula at the clipped, floored self-distance (exactly 0 for the
squared-distance kernels ExpQuad and RatQuad, which therefore agree
exactly, and sqrt(0 + 1e-12) = 1e-6 for the Euclidean-distance kernels). -/
theorem stationary_diag_matches_full_diagonal {r a d : ℕ} (ad : Fin a → Fin d)
    (ls : Fin a → ℝ) (alpha : ℝ) (X : Matrix (Fin r) (Fin d) ℝ) (i : Fin r) :
    stationaryDiag X i = 1 ∧
    expQuadFull ad ls X i i = 1 ∧
    ratQuadFull ad ls alpha X i i = 1 ∧
    |expQuadFull ad ls X i i - stationaryDiag X i| ≤ 1e-6 ∧
    |ratQuadFull ad ls alpha X i i - stationaryDiag X i| ≤ 1e-6 ∧
    |matern52Full ad ls X i i - stationaryDiag X i| ≤ 1e-6 ∧
    |matern32Full ad ls X i i - stationaryDiag X i| ≤ 1e-6 ∧
    |exponentialFull ad ls X i i - stationaryDiag X i| ≤ 1e-6 ∧
    |cosineFull ad ls X i i - stationaryDiag X i| ≤ 1e-6 := by
  have hdg : stationaryDiag X i = 1 := rfl
  have hEQ : expQuadFull ad ls X i i = 1 := by
    simp only [expQuadFull]
    rw [square_dist_diag]
    norm_num
  have hRQ : ratQuadFull ad ls alpha X i i = 1 := by
    simp only [ratQuadFull]
    rw [square_dist_diag]
    norm_num [Real.one_rpow]
  have hM52 : |matern52Full ad ls X i i - stationaryDiag X i| ≤ 1e-6 := by
    simp only [matern52Full, hdg]
    rw [euclidean_dist_diag]
    set x : ℝ := Real.sqrt 5.0 * 1e-6 with hxdef
    have hx0 : 0 ≤ x := mul_nonneg (Real.sqrt_nonneg _) (by norm_num)
    have hx1 : x ≤ 2.5e-6 := by
      rw [hxdef]
      nlinarith [sqrt_five_le, Real.sqrt_nonneg (5.0 : ℝ)]
    have hsq : x ^ 2 = 5.0 * (1e-6 : ℝ) ^ 2 := by
      rw [hxdef, mul_pow, Real.sq_sqrt (by norm_num : (5.0 : ℝ) ≥ 0).le]
    have hform : 1.0 + Real.sqrt 5.0 * 1e-6 + 5.0 / 3.0 * (1e-6 : ℝ) ^ 2
        = 1 + x + x ^ 2 / 3 := by
      rw [hsq, hxdef]; ring
    have hexparg : -1.0 * Real.sqrt 5.0 * (1e-6 : ℝ) = -x := by
      rw [hxdef]; ring
    rw [hform, hexparg]
    have hb := matern52_core_bounds x hx0 (by linarith)
    rw [abs_le]
    constructor
    · nlinarith [hb.2]
    · nlinarith [hb.1, hsq]
  have hM32 : |matern32Full ad ls X i i - stationaryDiag X i| ≤ 1e-6 := by
    simp only [matern32Full, hdg]
    rw [euclidean_dist_diag]
    set x : ℝ := Real.sqrt 3.0 * 1e-6 with hxdef
    have hx0 : 0 ≤ x := mul_nonneg (Real.sqrt_nonneg _) (by norm_num)
    have hx1 : x ≤ 2e-6 := by
      rw [hxdef]
      nlinarith [sqrt_three_le, Real.sqrt_nonneg (3.0 : ℝ)]
    have hform : 1.0 + Real.sqrt 3.0 * (1e-6 : ℝ) = 1 + x := by rw [hxdef]; norm_num
    have hexparg : -Real.sqrt 3.0 * (1e-6 : ℝ) = -x := by rw [hxdef]; ring
    rw [hform, hexparg]
    have hb := one_add_mul_exp_neg_bounds x hx0 (by linarith)
    rw [abs_le]
    constructor
    · nlinarith [hb.2]
    · nlinarith [hb.1]
  have hExp : |exponentialFull ad ls X i i - stationaryDiag X i| ≤ 1e-6 := by
    simp only [exponentialFull, hdg]
    rw [euclidean_dist_diag]
    have h := exp_neg_close_to_one (0.5 * 1e-6) (by norm_num)
    rw [show -0.5 * (1e-6 : ℝ) = -(0.5 * 1e-6) by ring]
    calc |Real.exp (-(0.5 * 1e-6)) - 1| ≤ 0.5 * 1e-6 := h
      _ ≤ 1e-6 := by norm_num
  have hCos : |cosineFull ad ls X i i - stationaryDiag X i| ≤ 1e-6 := by
    simp only [cosineFull, hdg]
    rw [euclidean_dist_diag]
    have hth0 : 0 ≤ Real.pi * 1e-6 := by positivity
    have hth1 : Real.pi * 1e-6 ≤ 4e-6 := by
      nlinarith [Real.pi_le_four]
    have hup : Real.cos (Real.pi * 1e-6) ≤ 1 := Real.cos_le_one _
    have hlo : 1 - (Real.pi * 1e-6) ^ 2 / 2 ≤ Real.cos (Real.pi * 1e-6) :=
      Real.one_sub_sq_div_two_le_cos
    rw [abs_le]
    constructor
    · nlinarith
    · nlinarith
  exact ⟨hdg, hEQ, hRQ, by rw [hEQ, hdg]; norm_num, by rw [hRQ, hdg]; norm_num,
    hM52, hM32, hExp, hCos⟩

/-- C4: in a Sum or Product combination evaluated with diag=true, every
matrix-valued operand contributes exactly its diagonal (and a Covariance
operand its own diag-mode value) to the merged factor list, and the
result is the left-to-right elementwise combination of those per-operand
diagonal values — so off-diagonal entries of matrix operands never
influence a diagonal-only request. -/
theorem combination_diag_uses_diagonals {n : ℕ} (fl : List (CovT n))
    (v0 : Val n) (vs : List (Val n))
    (h : mergeFactors true fl = some (v0 :: vs)) :
    List.Forall₂ diagContribution fl (v0 :: vs) ∧
    covCall true (.add fl) = some (vs.foldl (valOp (· + ·)) v0) ∧
    covCall true (.prod fl) = some (vs.foldl (valOp (· * ·)) v0) ∧
    (∀ i, asVec (vs.foldl (valOp (· + ·)) v0) i
        = (vs.map (fun v => asVec v i)).foldl (· + ·) (asVec v0 i)) ∧
    (∀ i, asVec (vs.foldl (valOp (· * ·)) v0) i
        = (vs.map (fun v => asVec v i)).foldl (· * ·) (asVec v0 i)) := by
  have hdv := mergeFactors_true_diagVal fl (v0 :: vs) h
  refine ⟨mergeFactors_diagContribution fl _ h, ?_, ?_, ?_, ?_⟩
  · rw [show covCall true (CovT.add fl)
          = (mergeFactors true fl).bind (pyReduce (valOp (· + ·))) from rfl, h]
    rfl
  · rw [show covCall true (CovT.prod fl)
          = (mergeFactors true fl).bind (pyReduce (valOp (· * ·))) from rfl, h]
    rfl
  · exact fun i => asVec_foldl _ vs v0 (hdv v0 (by simp))
      (fun y hy => hdv y (by simp [hy])) i
  · exact fun i => asVec_foldl _ vs v0 (hdv v0 (by simp))
      (fun y hy => hdv y (by simp [hy])) i

/-- The concrete operand list used in the witness for C4: a constant 2x2
matrix, a scalar, and a primitive kernel. -/
def c4fl : List (CovT 2) :=
  [.arr !![1, 2; 3, 4], .scal 5, .base !![9, 9; 9, 9] (fun _ => 7)]

/-- Witness for C4 at the concrete operand list c4fl. -/
theorem combination_diag_uses_diagonals_witness :
    mergeFactors true c4fl
      = some (Val.vec (Matrix.diag !![1, 2; 3, 4])
              :: [Val.scal 5, Val.vec (fun _ => 7)]) ∧
    (List.Forall₂ diagContribution c4fl
        (Val.vec (Matrix.diag !![1, 2; 3, 4])
          :: [Val.scal 5, Val.vec (fun _ => 7)]) ∧
      covCall true (.add c4fl)
        = some ([Val.scal 5, Val.vec (fun _ => 7)].foldl (valOp (· + ·))
            (Val.vec (Matrix.diag !![1, 2; 3, 4]))) ∧
      covCall true (.prod c4fl)
        = some ([Val.scal 5, Val.vec (fun _ => 7)].foldl (valOp (· * ·))
            (Val.vec (Matrix.diag !![1, 2; 3, 4]))) ∧
      (∀ i, asVec ([Val.scal 5, Val.vec (fun _ => 7)].foldl (valOp (· + ·))
              (Val.vec (Matrix.diag !![1, 2; 3, 4]))) i
          = ([Val.scal 5, Val.vec (fun _ => 7)].map (fun v => asVec v i)).foldl
              (· + ·) (asVec (Val.vec (Matrix.diag !![1, 2; 3, 4])) i)) ∧
      (∀ i, asVec ([Val.scal 5, Val.vec (fun _ => 7)].foldl (valOp (· * ·))
              (Val.vec (Matrix.diag !![1, 2; 3, 4]))) i
          = ([Val.scal 5, Val.vec (fun _ => 7)].map (fun v => asVec v i)).foldl
              (· * ·) (asVec (Val.vec (Matrix.diag !![1, 2; 3, 4])) i))) :=
  ⟨rfl, combination_diag_uses_diagonals c4fl _ _ rfl⟩

theorem flatAdd_add {n : ℕ} (l : List (CovT n)) : flatAdd (.add l) = l := rfl

theorem flatProd_prod {n : ℕ} (l : List (CovT n)) : flatProd (.prod l) = l := rfl

theorem flatAdd_prod {n : ℕ} (l : List (CovT n)) :
    flatAdd (.prod l) = [.prod l] := rfl

theorem flatAdd_of_not_add {n : ℕ} (k : CovT n) (h : isAdd k = false) :
    flatAdd k = [k] := by
  cases k <;> simp_all [isAdd, flatAdd]

theorem flatProd_of_not_prod {n : ℕ} (k : CovT n) (h : isProd k = false) :
    flatProd k = [k] := by
  cases k <;> simp_all [isProd, flatProd]

/-- C5: building a combination from operands that include a combination of
the same operator type splices that operand's factor_list into the parent's
(so both groupings of three terms yield the same flattened combination, a
single Add/Prod with three terms when the leaves are not themselves of the
same operator type), a nested combination of the other operator type stays
a single nested term, and consequently the two groupings evaluate
identically, in full-matrix mode and in diag mode alike. -/
theorem combination_flattening {n : ℕ} :
    (∀ k1 k2 k3 : CovT n,
      mkAdd [mkAdd [k1, k2], k3] = mkAdd [k1, mkAdd [k2, k3]]) ∧
    (∀ k1 k2 k3 : CovT n,
      mkProd [mkProd [k1, k2], k3] = mkProd [k1, mkProd [k2, k3]]) ∧
    (∀ k1 k2 k3 : CovT n, isAdd k1 = false → isAdd k2 = false →
      isAdd k3 = false →
      mkAdd [mkAdd [k1, k2], k3] = .add [k1, k2, k3] ∧
      mkAdd [k1, mkAdd [k2, k3]] = .add [k1, k2, k3]) ∧
    (∀ (l : List (CovT n)) (k : CovT n), isAdd k = false →
      mkAdd [mkProd l, k] = .add [.prod (flattenProd l), k]) ∧
    (∀ (diag : Bool) (k1 k2 k3 : CovT n),
      covCall diag (mkAdd [mkAdd [k1, k2], k3])
        = covCall diag (mkAdd [k1, mkAdd [k2, k3]]) ∧
      covCall diag (mkProd [mkProd [k1, k2], k3])
        = covCall diag (mkProd [k1, mkProd [k2, k3]])) := by
  have hA : ∀ k1 k2 k3 : CovT n,
      mkAdd [mkAdd [k1, k2], k3] = mkAdd [k1, mkAdd [k2, k3]] := by
    intro k1 k2 k3
    simp [mkAdd, flattenAdd, flatAdd_add, List.append_assoc]
  have hP : ∀ k1 k2 k3 : CovT n,
      mkProd [mkProd [k1, k2], k3] = mkProd [k1, mkProd [k2, k3]] := by
    intro k1 k2 k3
    simp [mkProd, flattenProd, flatProd_prod, List.append_assoc]
  refine ⟨hA, hP, ?_, ?_, ?_⟩
  · intro k1 k2 k3 h1 h2 h3
    constructor
    · simp [mkAdd, flattenAdd, flatAdd_add, flatAdd_of_not_add _ h1,
        flatAdd_of_not_add _ h2, flatAdd_of_not_add _ h3]
    · simp [mkAdd, flattenAdd, flatAdd_add, flatAdd_of_not_add _ h1,
        flatAdd_of_not_add _ h2, flatAdd_of_not_add _ h3]
  · intro l k h
    simp only [mkAdd, mkProd, flattenAdd, flatAdd_prod, flatAdd_of_not_add _ h]
    rfl
  · intro diag k1 k2 k3
    exact ⟨congrArg (covCall diag) (hA k1 k2 k3),
           congrArg (covCall diag) (hP k1 k2 k3)⟩

/-- Witness for C5 at three concrete primitive kernels. -/
theorem combination_flattening_witness :
    (isAdd (CovT.base (n := 2) !![1, 0; 0, 1] (fun _ => 1)) = false ∧
     isAdd (CovT.base (n := 2) !![2, 0; 0, 2] (fun _ => 2)) = false ∧
     isAdd (CovT.base (n := 2) !![3, 0; 0, 3] (fun _ => 3)) = false) ∧
    (mkAdd [mkAdd [CovT.base (n := 2) !![1, 0; 0, 1] (fun _ => 1),
                   CovT.base !![2, 0; 0, 2] (fun _ => 2)],
            CovT.base !![3, 0; 0, 3] (fun _ => 3)]
        = .add [CovT.base !![1, 0; 0, 1] (fun _ => 1),
                CovT.base !![2, 0; 0, 2] (fun _ => 2),
                CovT.base !![3, 0; 0, 3] (fun _ => 3)] ∧
     mkAdd [CovT.base (n := 2) !![1, 0; 0, 1] (fun _ => 1),
            mkAdd [CovT.base !![2, 0; 0, 2] (fun _ => 2),
                   CovT.base !![3, 0; 0, 3] (fun _ => 3)]]
        = .add [CovT.base !![1, 0; 0, 1] (fun _ => 1),
                CovT.base !![2, 0; 0, 2] (fun _ => 2),
                CovT.base !![3, 0; 0, 3] (fun _ => 3)]) :=
  ⟨⟨rfl, rfl, rfl⟩,
   combination_flattening.2.2.1 _ _ _ rfl rfl rfl⟩

/-- The simplest concrete implementation of the linear-algebra
collaborators, used to evaluate the embedded methods at concrete inputs:
Cholesky and the triangular solves return their right-hand side unchanged.
The code treats these operations as black boxes, so any instantiation is
admissible for exhibiting counterexamples. -/
noncomputable def trivialLinAlg : LinAlg where
  chol := fun {_} M => M
  solveLowerM := fun {_ _} _ B => B
  solveLowerV := fun {_} _ r => r
  solveUpperV := fun {_} _ r => r

/-- A concrete covariance function whose self-covariance is the all-ones
matrix and whose cross-covariance is zero. -/
noncomputable def onesSelfKernel : KernelFn 1 where
  full1 := fun {_} _ => fun _ _ => 1
  full2 := fun {_ _} _ _ => 0
  dg := fun {_} _ _ => 0

/-- The zero noise covariance function. -/
noncomputable def zeroNoise : NoiseFn 1 := fun {_} _ => 0

/-- The Zero mean function. -/
noncomputable def zeroMean : MeanFn 1 where
  app := fun {_} _ _ => 0

/-- A concrete implementation of the linear-algebra collaborators whose
triangular solves multiply by the factor, so the result of a method is
sensitive to the matrix it decomposed; used to exhibit that a Cholesky
argument is not stabilized. -/
noncomputable def probeLinAlg : LinAlg where
  chol := fun {_} M => M
  solveLowerM := fun {_ _} L B => L * B
  solveLowerV := fun {_} L r => L *ᵥ r
  solveUpperV := fun {_} L r => L *ᵥ r

/-- A concrete covariance function all of whose matrix evaluations are
all-ones, so nonzero values flow through the Woodbury solves. -/
noncomputable def onesKernel : KernelFn 1 where
  full1 := fun {_} _ => fun _ _ => 1
  full2 := fun {_ _} _ _ => fun _ _ => 1
  dg := fun {_} _ _ => 0

/-- C1 (amended): GPFullConjugate.conditional computes exactly the claimed
quantities — L = cholesky(stabilize(K(X,X)) + noise(X,X)),
A = solve_lower(L, K(X,Xs)), V = solve_lower(L, y - mean(X)), posterior
mean mean(Xs) + Aᵗ V, posterior covariance K(Xs,Xs) - Aᵗ A with the noise
covariance at Xs added exactly when obs_noise is true — but the covariance
it returns is additionally passed through stabilize. -/
theorem full_conditional_posterior {d nf ns : ℕ} (la : LinAlg) (K : KernelFn d)
    (Kn : NoiseFn d) (m : MeanFn d) (X : Matrix (Fin nf) (Fin d) ℝ)
    (Xs : Matrix (Fin ns) (Fin d) ℝ) (y : Fin nf → ℝ) (obs_noise : Bool) :
    fullConditional la K Kn m X Xs y obs_noise
      = (claimFullCondMean la K Kn m X Xs y,
         stabilize (claimFullCondCov la K Kn X Xs obs_noise)) := by
  simp only [fullConditional, claimFullCondMean, claimFullCondCov,
    Prod.mk.injEq]
  exact ⟨add_comm _ _, trivial⟩

/-- Counterexample to C1 as stated: at a concrete one-point input the
covariance returned by conditional differs from the claimed
K(Xs,Xs) - Aᵗ A, because the method stabilizes the covariance before
returning it. -/
theorem full_conditional_counterexample :
    (fullConditional trivialLinAlg onesSelfKernel zeroNoise zeroMean
        (0 : Matrix (Fin 1) (Fin 1) ℝ) (0 : Matrix (Fin 1) (Fin 1) ℝ) 0 false).2
      ≠ claimFullCondCov trivialLinAlg onesSelfKernel zeroNoise
          (0 : Matrix (Fin 1) (Fin 1) ℝ) (0 : Matrix (Fin 1) (Fin 1) ℝ) false := by
  intro h
  have h00 := congrFun (congrFun h 0) 0
  simp only [fullConditional, claimFullCondCov, stabilize, ttEye,
    trivialLinAlg, onesSelfKernel, zeroNoise, zeroMean, Matrix.trace,
    Matrix.diag, Matrix.add_apply, Matrix.sub_apply, Matrix.mul_apply,
    Matrix.smul_apply, Matrix.zero_apply, Fin.sum_univ_one, Matrix.transpose_apply,
    if_pos, Bool.false_eq_true, if_false, smul_eq_mul] at h00
  norm_num at h00

theorem sparseLogp_concrete_value :
    sparseLogp trivialLinAlg onesSelfKernel zeroMean (0 : Matrix (Fin 1) (Fin 1) ℝ)
        (0 : Matrix (Fin 1) (Fin 1) ℝ) 1 "FITC" 0
      = some (-(0.5 * Real.log (2.0 * Real.pi))) := by
  simp [sparseLogp, trivialLinAlg, onesSelfKernel, zeroMean, stabilize, ttEye,
    ttClip0, Matrix.trace, Matrix.diag, Matrix.mul_apply, Matrix.add_apply,
    Matrix.smul_apply, Fin.sum_univ_one, Matrix.mulVec, Matrix.dotProduct,
    smul_eq_mul]
  norm_num

theorem claimSparseLogpStabLB_concrete_value :
    claimSparseLogpStabLB trivialLinAlg onesSelfKernel zeroMean
        (0 : Matrix (Fin 1) (Fin 1) ℝ) (0 : Matrix (Fin 1) (Fin 1) ℝ) 1 "FITC" 0
      = some (-(0.5 * Real.log (2.0 * Real.pi)
          + Real.log (1 + 1e-6))) := by
  simp [claimSparseLogpStabLB, trivialLinAlg, onesSelfKernel, zeroMean,
    stabilize, ttEye, ttClip0, Matrix.trace, Matrix.diag, Matrix.mul_apply,
    Matrix.add_apply, Matrix.smul_apply, Fin.sum_univ_one, Matrix.mulVec,
    Matrix.dotProduct, smul_eq_mul]
  norm_num

theorem sparseCond_LB_not_stabilized :
    sparseConditional probeLinAlg onesKernel zeroMean (0 : Matrix (Fin 1) (Fin 1) ℝ)
        (0 : Matrix (Fin 1) (Fin 1) ℝ) 1 "VFE" (0 : Matrix (Fin 1) (Fin 1) ℝ) 0 false
      ≠ claimSparseCondStabLB probeLinAlg onesKernel zeroMean
          (0 : Matrix (Fin 1) (Fin 1) ℝ) (0 : Matrix (Fin 1) (Fin 1) ℝ) 1 "VFE"
          (0 : Matrix (Fin 1) (Fin 1) ℝ) 0 false := by
  intro h
  have hval := congrArg
    (fun o => ((o.getD ((0 : Fin 1 → ℝ), (0 : Mat 1 1))).2) 0 0) h
  simp [sparseConditional, claimSparseCondStabLB, probeLinAlg, onesKernel,
    zeroMean, stabilize, ttEye, ttClip0, Matrix.trace, Matrix.diag,
    Matrix.mul_apply, Matrix.add_apply, Matrix.sub_apply, Matrix.smul_apply,
    Matrix.transpose_apply, Fin.sum_univ_one, Matrix.mulVec, Matrix.dotProduct,
    smul_eq_mul] at hval
  norm_num at hval

/-- C3 (amended): stabilize(K) returns K + 1e-6 (trace(K)/n) I elementwise;
the kernel covariance matrices are stabilized before their Cholesky
factorizations — the sparse variants build A from
Luu = cholesky(stabilize(K(Xu,Xu))), the non-conjugate variant factors
stabilize(K(X,X)), and the full-conjugate variant's conditional and logp
factor L = cholesky(stabilize(K(X,X)) + noise(X,X)) — but the sparse
variant's Woodbury matrix eye(m) + A_l Aᵗ is passed to Cholesky in logp and
in conditional without stabilize: inserting stabilize there changes the
result of each method at a concrete input. -/
theorem stabilize_before_cholesky_amended :
    (∀ (k : ℕ) (K : Mat k k),
      (∀ i, stabilize K i i = K i i + 1e-6 * ((∑ t, K t t) / (k : ℝ))) ∧
      (∀ i j, i ≠ j → stabilize K i j = K i j)) ∧
    (∀ (d nf nu : ℕ) (la : LinAlg) (K : KernelFn d)
       (X : Matrix (Fin nf) (Fin d) ℝ) (Xu : Matrix (Fin nu) (Fin d) ℝ),
      sparseLogpA la K X Xu
        = la.solveLowerM (la.chol (stabilize (K.full2 Xu Xu))) (K.full2 Xu X)) ∧
    (∀ (d nf : ℕ) (la : LinAlg) (K : KernelFn d)
       (X : Matrix (Fin nf) (Fin d) ℝ) (v : Fin nf → ℝ),
      nonConjRV la K X v = la.chol (stabilize (K.full1 X)) *ᵥ v) ∧
    (∀ (d nf ns : ℕ) (la : LinAlg) (K : KernelFn d) (Kn : NoiseFn d)
       (m : MeanFn d) (X : Matrix (Fin nf) (Fin d) ℝ)
       (Xs : Matrix (Fin ns) (Fin d) ℝ) (y : Fin nf → ℝ) (obs_noise : Bool),
      fullConditional la K Kn m X Xs y obs_noise
        = fullConditionalGivenL la (la.chol (stabilize (K.full1 X) + Kn X))
            K Kn m X Xs y obs_noise) ∧
    (∀ (d nf : ℕ) (la : LinAlg)
       (mvnCholLogp : (Fin nf → ℝ) → Mat nf nf → (Fin nf → ℝ) → ℝ)
       (K : KernelFn d) (Kn : NoiseFn d) (m : MeanFn d)
       (X : Matrix (Fin nf) (Fin d) ℝ) (y : Fin nf → ℝ),
      fullLogp la mvnCholLogp K Kn m X y
        = mvnCholLogp (m.app X) (la.chol (stabilize (K.full1 X) + Kn X)) y) ∧
    sparseLogp trivialLinAlg onesSelfKernel zeroMean (0 : Matrix (Fin 1) (Fin 1) ℝ)
        (0 : Matrix (Fin 1) (Fin 1) ℝ) 1 "FITC" 0
      ≠ claimSparseLogpStabLB trivialLinAlg onesSelfKernel zeroMean
          (0 : Matrix (Fin 1) (Fin 1) ℝ) (0 : Matrix (Fin 1) (Fin 1) ℝ) 1 "FITC" 0 ∧
    sparseConditional probeLinAlg onesKernel zeroMean (0 : Matrix (Fin 1) (Fin 1) ℝ)
        (0 : Matrix (Fin 1) (Fin 1) ℝ) 1 "VFE" (0 : Matrix (Fin 1) (Fin 1) ℝ) 0 false
      ≠ claimSparseCondStabLB probeLinAlg onesKernel zeroMean
          (0 : Matrix (Fin 1) (Fin 1) ℝ) (0 : Matrix (Fin 1) (Fin 1) ℝ) 1 "VFE"
          (0 : Matrix (Fin 1) (Fin 1) ℝ) 0 false := by
  refine ⟨?_, fun _ _ _ _ _ _ _ => rfl, fun _ _ _ _ _ _ => rfl,
    fun _ _ _ _ _ _ _ _ _ _ _ => rfl, fun _ _ _ _ _ _ _ _ _ => rfl, ?_,
    sparseCond_LB_not_stabilized⟩
  · intro k K
    constructor
    · intro i
      simp [stabilize, ttEye, Matrix.add_apply, Matrix.smul_apply,
        Matrix.trace, Matrix.diag, smul_eq_mul]
    · intro i j hij
      simp [stabilize, ttEye, Matrix.add_apply, Matrix.smul_apply, hij,
        smul_eq_mul]
  · rw [sparseLogp_concrete_value, claimSparseLogpStabLB_concrete_value]
    intro h
    have hlog : 0 < Real.log (1 + 1e-6) :=
      Real.log_pos (by norm_num)
    simp only [Option.some.injEq] at h
    nlinarith [hlog]

/-- Witness for the amended C3 at a concrete input: off-diagonal entries of
a stabilized 2 by 2 matrix are unchanged. -/
theorem stabilize_before_cholesky_amended_witness :
    (0 : Fin 2) ≠ 1 ∧ stabilize (ttEye 2) 0 1 = ttEye 2 0 1 :=
  ⟨by decide, (stabilize_before_cholesky_amended.1 2 (ttEye 2)).2 0 1 (by decide)⟩

/-- Counterexample to C3 as stated: in GPSparseConjugate.logp (here under
the VFE approximation) the matrix eye(m) + A_l Aᵗ is decomposed without a
preceding stabilize — the logp the code computes differs, at a concrete
one-point input, from the logp obtained when stabilize is applied to that
matrix immediately before its Cholesky factorization, so not every matrix
passed to a Cholesky decomposition has had stabilize applied to it. -/
theorem stabilize_before_cholesky_counterexample :
    sparseLogp trivialLinAlg onesSelfKernel zeroMean (0 : Matrix (Fin 1) (Fin 1) ℝ)
        (0 : Matrix (Fin 1) (Fin 1) ℝ) 1 "VFE" 0
      ≠ claimSparseLogpStabLB trivialLinAlg onesSelfKernel zeroMean
          (0 : Matrix (Fin 1) (Fin 1) ℝ) (0 : Matrix (Fin 1) (Fin 1) ℝ) 1 "VFE" 0 := by
  have h1 : sparseLogp trivialLinAlg onesSelfKernel zeroMean
      (0 : Matrix (Fin 1) (Fin 1) ℝ) (0 : Matrix (Fin 1) (Fin 1) ℝ) 1 "VFE" 0
      = some (-(0.5 * Real.log (2.0 * Real.pi))) := by
    simp [sparseLogp, trivialLinAlg, onesSelfKernel, zeroMean, stabilize, ttEye,
      ttClip0, Matrix.trace, Matrix.diag, Matrix.mul_apply, Matrix.add_apply,
      Matrix.smul_apply, Fin.sum_univ_one, Matrix.mulVec, Matrix.dotProduct,
      smul_eq_mul]
    norm_num
  have h2 : claimSparseLogpStabLB trivialLinAlg onesSelfKernel zeroMean
      (0 : Matrix (Fin 1) (Fin 1) ℝ) (0 : Matrix (Fin 1) (Fin 1) ℝ) 1 "VFE" 0
      = some (-(0.5 * Real.log (2.0 * Real.pi) + Real.log (1 + 1e-6))) := by
    simp [claimSparseLogpStabLB, trivialLinAlg, onesSelfKernel, zeroMean,
      stabilize, ttEye, ttClip0, Matrix.trace, Matrix.diag, Matrix.mul_apply,
      Matrix.add_apply, Matrix.smul_apply, Fin.sum_univ_one, Matrix.mulVec,
      Matrix.dotProduct, smul_eq_mul]
    norm_num
  rw [h1, h2]
  intro h
  have hlog : 0 < Real.log (1 + 1e-6) := Real.log_pos (by norm_num)
  simp only [Option.some.injEq] at h
  nlinarith [hlog]

theorem claimSparseLogpFormula_trace_shift {d nf nu : ℕ} (la : LinAlg)
    (m : MeanFn d) (X : Matrix (Fin nf) (Fin d) ℝ) (A : Mat nu nf)
    (Lamd : Fin nf → ℝ) (t : ℝ) (y : Fin nf → ℝ) :
    claimSparseLogpFormula la m X A Lamd t y
      = claimSparseLogpFormula la m X A Lamd 0 y - t := by
  simp only [claimSparseLogpFormula]
  ring

/-- C2: the sparse-conjugate logp equals
-(0.5 n log(2 pi) + 0.5 sum(log Lamd) + sum(log diag L_B) +
0.5 (r r_l - c c) + trace_term), with Lamd = clip(K_diag(X) - Qffd, 0, inf)
+ sigma-squared and a zero trace term under FITC, and Lamd = sigma-squared
uniformly with trace term (1/(2 sigma-squared))(sum K_diag(X) - sum Qffd)
under VFE; and whenever the two modes' Lamd agree (the clipped FITC
correction vanishes), the trace penalty is the only remaining difference
between the two modes' logp. -/
theorem sparse_logp_fitc_vfe {d nf nu : ℕ} (la : LinAlg) (K : KernelFn d)
    (m : MeanFn d) (X : Matrix (Fin nf) (Fin d) ℝ)
    (Xu : Matrix (Fin nu) (Fin d) ℝ) (sigma : ℝ) (y : Fin nf → ℝ) :
    sparseLogp la K m X Xu sigma "FITC" y
      = some (claimSparseLogpFormula la m X (sparseLogpA la K X Xu)
          (claimLamdFITC K X (sparseLogpA la K X Xu) sigma) 0 y) ∧
    sparseLogp la K m X Xu sigma "VFE" y
      = some (claimSparseLogpFormula la m X (sparseLogpA la K X Xu)
          (fun _ => sigma ^ 2) (claimTraceVFE K X (sparseLogpA la K X Xu) sigma) y) ∧
    ((∀ j, ttClip0 (K.dg X j
          - ∑ i, sparseLogpA la K X Xu i j * sparseLogpA la K X Xu i j) = 0) →
      sparseLogp la K m X Xu sigma "FITC" y
        = (sparseLogp la K m X Xu sigma "VFE" y).map
            (fun t => t + claimTraceVFE K X (sparseLogpA la K X Xu) sigma)) := by
  have hFITC : sparseLogp la K m X Xu sigma "FITC" y
      = some (claimSparseLogpFormula la m X (sparseLogpA la K X Xu)
          (claimLamdFITC K X (sparseLogpA la K X Xu) sigma) 0 y) := by
    simp only [sparseLogp, claimSparseLogpFormula, claimLamdFITC, sparseLogpA,
      reduceIte, Option.map_some', Option.some.injEq]
    ring
  have hne : ¬ (("VFE" : String) = "FITC") := by decide
  have hVFE : sparseLogp la K m X Xu sigma "VFE" y
      = some (claimSparseLogpFormula la m X (sparseLogpA la K X Xu)
          (fun _ => sigma ^ 2) (claimTraceVFE K X (sparseLogpA la K X Xu) sigma) y) := by
    simp only [sparseLogp, claimSparseLogpFormula, claimTraceVFE, sparseLogpA,
      if_neg hne, reduceIte, Option.map_some', Option.some.injEq]
    ring
  refine ⟨hFITC, hVFE, ?_⟩
  intro h
  have hL : claimLamdFITC K X (sparseLogpA la K X Xu) sigma
      = fun _ => sigma ^ 2 := by
    funext j
    simp only [claimLamdFITC]
    rw [h j, zero_add]
  rw [hFITC, hVFE, Option.map_some', hL]
  conv_rhs => rw [claimSparseLogpFormula_trace_shift]
  ring_nf

/-- Witness for C2 at a concrete input: one training point, one inducing
point, the concrete kernel with zero cross covariance and zero diagonal, so
the FITC correction clips to zero. -/
theorem sparse_logp_fitc_vfe_witness :
    (∀ j : Fin 1, ttClip0 ((onesSelfKernel.dg (0 : Matrix (Fin 1) (Fin 1) ℝ)) j
        - ∑ i, sparseLogpA trivialLinAlg onesSelfKernel
              (0 : Matrix (Fin 1) (Fin 1) ℝ) (0 : Matrix (Fin 1) (Fin 1) ℝ) i j
            * sparseLogpA trivialLinAlg onesSelfKernel
              (0 : Matrix (Fin 1) (Fin 1) ℝ) (0 : Matrix (Fin 1) (Fin 1) ℝ) i j) = 0) ∧
    sparseLogp trivialLinAlg onesSelfKernel zeroMean
        (0 : Matrix (Fin 1) (Fin 1) ℝ) (0 : Matrix (Fin 1) (Fin 1) ℝ) 1 "FITC" 0
      = (sparseLogp trivialLinAlg onesSelfKernel zeroMean
          (0 : Matrix (Fin 1) (Fin 1) ℝ) (0 : Matrix (Fin 1) (Fin 1) ℝ) 1 "VFE" 0).map
          (fun t => t + claimTraceVFE onesSelfKernel (0 : Matrix (Fin 1) (Fin 1) ℝ)
            (sparseLogpA trivialLinAlg onesSelfKernel (0 : Matrix (Fin 1) (Fin 1) ℝ)
              (0 : Matrix (Fin 1) (Fin 1) ℝ)) 1) := by
  have hclip : ∀ j : Fin 1,
      ttClip0 ((onesSelfKernel.dg (0 : Matrix (Fin 1) (Fin 1) ℝ)) j
        - ∑ i, sparseLogpA trivialLinAlg onesSelfKernel
              (0 : Matrix (Fin 1) (Fin 1) ℝ) (0 : Matrix (Fin 1) (Fin 1) ℝ) i j
            * sparseLogpA trivialLinAlg onesSelfKernel
              (0 : Matrix (Fin 1) (Fin 1) ℝ) (0 : Matrix (Fin 1) (Fin 1) ℝ) i j) = 0 := by
    intro j
    simp [sparseLogpA, trivialLinAlg, onesSelfKernel, ttClip0]
  exact ⟨hclip,
    (sparse_logp_fitc_vfe trivialLinAlg onesSelfKernel zeroMean 0 0 1 0).2.2 hclip⟩

/-- C10: the non-conjugate GP variant's logp(y) returns exactly 0.0 for
every y — it is the base-class default, inherited unchanged — so the GP
value contributes no log-density of its own; the density of the whitened
parameterization comes from the standard-normal rotation vector v, the GP
value being the deterministic transform L v with
L = cholesky(stabilize(K(X,X))). -/
theorem nonconjugate_logp_is_zero :
    (∀ (nf : ℕ) (y : Fin nf → ℝ), nonConjLogp y = 0) ∧
    (∀ (nf : ℕ) (y : Fin nf → ℝ), nonConjLogp y = GPBase_logp y) ∧
    (∀ (d nf : ℕ) (la : LinAlg) (K : KernelFn d)
       (X : Matrix (Fin nf) (Fin d) ℝ) (v : Fin nf → ℝ),
       nonConjRV la K X v = (la.chol (stabilize (K.full1 X))) *ᵥ v) :=
  ⟨fun _ _ => by norm_num [nonConjLogp, GPBase_logp], fun _ _ => rfl,
   fun _ _ _ _ _ _ => rfl⟩

/-- C7: evaluation of the Gibbs constructor guard.  The guard
"input_dim != 1 or sum(active_dims) == 1" raises NotImplementedError for
input_dim = 1 with active_dims selecting exactly one dimension — the very
case the claim (and the error message itself) says must succeed — while it
accepts input_dim = 1 with an active_dims that selects no dimension.
Higher-dimensional inputs and non-callable lengthscale functions fail as
claimed. -/
theorem gibbs_init_guard_evaluation :
    gibbsInit 1 (some [1]) true = .error .higherDimUntested ∧
    gibbsInit 1 (some [0]) true = .ok () ∧
    gibbsInit 1 none true = .ok () ∧
    gibbsInit 2 none true = .error .higherDimUntested ∧
    gibbsInit 2 (some [1, 0]) true = .error .higherDimUntested ∧
    gibbsInit 1 none false = .error .lengthscaleNotCallable := by
  refine ⟨rfl, rfl, rfl, rfl, rfl, rfl⟩

/-- C8: sample_gp defaults n_samples to the full trace length, selects its
indices without replacement (the selection is an initial segment of a
permutation, hence duplicate-free), and fails with numpy's
replace=False error when n_samples exceeds the trace length. -/
theorem sample_gp_index_selection :
    (∀ (traceLen : ℕ) (perm : List ℕ),
      sampleGPIndices traceLen none perm
        = npChoiceNoReplace traceLen traceLen perm) ∧
    (∀ (traceLen : ℕ) (perm : List ℕ), perm.length = traceLen →
      ∃ l, sampleGPIndices traceLen none perm = .ok l ∧ l.length = traceLen) ∧
    (∀ (traceLen : ℕ) (nS : Option ℕ) (perm : List ℕ) (l : List ℕ),
      perm.Nodup → sampleGPIndices traceLen nS perm = .ok l → l.Nodup) ∧
    (∀ (traceLen n : ℕ) (perm : List ℕ), traceLen < n →
      sampleGPIndices traceLen (some n) perm = .error npChoiceError) := by
  refine ⟨fun traceLen perm => rfl, ?_, ?_, ?_⟩
  · intro traceLen perm h
    refine ⟨perm.take traceLen, ?_, ?_⟩
    · simp [sampleGPIndices, npChoiceNoReplace]
    · simp [List.length_take, h]
  · intro traceLen nS perm l hperm h
    simp only [sampleGPIndices, npChoiceNoReplace] at h
    by_cases hle : nS.getD traceLen ≤ traceLen
    · rw [if_pos hle] at h
      cases h
      exact hperm.sublist (List.take_sublist _ _)
    · rw [if_neg hle] at h
      cases h
  · intro traceLen n perm h
    simp [sampleGPIndices, npChoiceNoReplace, Nat.not_le.mpr h]

/-- Witness for C8 at a concrete input: a trace of length 2, the identity
permutation, and n_samples = 3 makes the sampler fail. -/
theorem sample_gp_index_selection_witness :
    2 < 3 ∧ sampleGPIndices 2 (some 3) [0, 1] = .error npChoiceError :=
  ⟨by decide, sample_gp_index_selection.2.2.2 2 3 [0, 1] (by decide)⟩

/-- C9: calling the GP constructor with observed data, approx = None and an
inducing-point argument reaches approx.upper() with approx still None,
which raises AttributeError before the "Using VFE approximation" defaulting
branch can run; consequently every successfully constructed sparse
conjugate GP was given an explicit (non-None) approx argument and never
went through the defaulting branch. -/
theorem approx_none_with_inducing_fails :
    (∀ (meanGiven meanIsMean covIsCov sigmaGiven covNoiseGiven nInd ind : Bool),
      (meanGiven = false ∨ meanIsMean = true) → covIsCov = true →
      (nInd = true ∨ ind = true) →
      gpDispatch meanGiven meanIsMean true covIsCov true sigmaGiven
          covNoiseGiven none nInd ind = .error .attributeNoneUpper) ∧
    (∀ (meanGiven meanIsMean covGiven covIsCov observedGiven : Bool)
       (sigmaGiven covNoiseGiven : Bool) (approx : Option String)
       (nInd ind : Bool) (s : String) (b : Bool),
      gpDispatch meanGiven meanIsMean covGiven covIsCov observedGiven
          sigmaGiven covNoiseGiven approx nInd ind
        = .ok (.sparseConjugate s b) → b = false ∧ approx ≠ none) := by
  constructor
  · intro meanGiven meanIsMean covIsCov sigmaGiven covNoiseGiven nInd ind h1 h2 h3
    cases meanGiven <;> cases meanIsMean <;> cases covIsCov <;> cases sigmaGiven <;>
      cases covNoiseGiven <;> cases nInd <;> cases ind <;> simp_all [gpDispatch]
  · intro meanGiven meanIsMean covGiven covIsCov observedGiven sigmaGiven
      covNoiseGiven approx nInd ind s b h
    rcases approx with _ | a
    · simp only [gpDispatch] at h
      split_ifs at h <;> simp_all
    · simp only [gpDispatch] at h
      split_ifs at h <;> simp_all

/-- Witness for C9 at a concrete input: observed data, approx = None,
n_inducing given. -/
theorem approx_none_with_inducing_fails_witness :
    gpDispatch false true true true true true false none true false
      = .error .attributeNoneUpper :=
  approx_none_with_inducing_fails.1 false true true true false true false
    (Or.inl rfl) rfl (Or.inl rfl)

end PyMC3GP
